import Mathlib

/-! Verification of the text-editor core in src/main.cpp: paragraph counting,
HTML/plain-text conversion, the extension-keyed format factory, the observer
subject, and the editor session's save and text-changed handlers.

Modelling conventions:
- text (QString) is modelled as `List Char`; file contents as `List Nat` (bytes);
- Qt library behaviour (QString::split, trimmed, toHtmlEscaped, QChar::isSpace,
  QChar::toLower, UTF-8 codecs, QFile) is modelled on the ASCII-relevant range;
  Unicode separator categories and locale-dependent case folding are out of scope;
- file I/O is modelled by an explicit store `List Char → Option (List Nat)`
  together with writability / readability predicates;
- user-visible effects (message boxes, observer notifications) are modelled as
  event traces. -/

/-- Whitespace test mirroring QChar::isSpace on the ASCII range
(space, tab, newline, vertical tab, form feed, carriage return). -/
def isQtSpace (c : Char) : Bool :=
  c = ' ' || c = '\t' || c = '\n' || c = '\x0b' || c = '\x0c' || c = '\r'

/-- Remove trailing whitespace characters. -/
def dropTrail (l : List Char) : List Char :=
  (l.reverse.dropWhile isQtSpace).reverse

/-- QString::trimmed: strip leading and trailing whitespace. -/
def trimQ (l : List Char) : List Char :=
  dropTrail (l.dropWhile isQtSpace)

/-- A line is blank when it is empty after trimming (`ln.trimmed().isEmpty()`). -/
def isBlank (ln : List Char) : Bool := (trimQ ln).isEmpty

/-- Prepend a character to the first part of a split (helper for `splitLines`). -/
def consHead (c : Char) : List (List Char) → List (List Char)
  | [] => [[c]]
  | l :: ls => (c :: l) :: ls

/-- QString::split on the newline character, keeping empty parts
(so the empty text has one empty line, as in Qt). -/
def splitLines : List Char → List (List Char)
  | [] => [[]]
  | c :: cs => if c = '\n' then [] :: splitLines cs else consHead c (splitLines cs)

/-- The accumulation loop of countParagraphs (src/main.cpp lines 186-200):
walk the lines, growing the current paragraph `cur`, flushing it into `paras`
at each blank line. -/
def cpFold : List (List Char) → List (List Char) → List Char → List (List Char)
  | [], paras, cur => if cur.isEmpty then paras else paras ++ [cur]
  | ln :: rest, paras, cur =>
    if isBlank ln then
      (if cur.isEmpty then cpFold rest paras cur else cpFold rest (paras ++ [cur]) [])
    else cpFold rest paras ((if cur.isEmpty then [] else cur ++ ['\n']) ++ ln)

/-- countParagraphs from src/main.cpp lines 186-200: number of collected
paragraph chunks. -/
def countParagraphs (t : List Char) : Nat := (cpFold (splitLines t) [] []).length

/-- The blank/non-blank pattern of a text's lines (true = blank). -/
def patL (t : List Char) : List Bool := (splitLines t).map isBlank

/-- Count the maximal runs of `false` (non-blank) entries in a blankness
pattern; `r` records whether we are currently inside such a run. -/
def runsB (r : Bool) : List Bool → Nat
  | [] => 0
  | b :: bs => if b then runsB false bs else (if r then 0 else 1) + runsB true bs

/-- Modelled from the spec's words: the number of maximal runs of consecutive
non-blank lines, a line being blank iff it is empty after trimming. -/
def maximalRunCount (t : List Char) : Nat := runsB false (patL t)

theorem isBlank_nil : isBlank [] = true := by decide

theorem isBlank_false_ne_nil {ln : List Char} (h : isBlank ln = false) :
    ln.isEmpty = false := by
  cases ln with
  | nil => exact absurd h (by decide)
  | cons c cs => rfl

theorem cpFold_length (lines : List (List Char)) :
    ∀ paras cur, (cpFold lines paras cur).length =
      paras.length + (if cur.isEmpty then 0 else 1) +
        runsB (!cur.isEmpty) (lines.map isBlank) := by
  induction lines with
  | nil =>
    intro paras cur
    by_cases h : cur.isEmpty <;> simp [cpFold, h, runsB]
  | cons ln rest ih =>
    intro paras cur
    by_cases hb : isBlank ln
    · by_cases hc : cur.isEmpty
      · simp [cpFold, hb, hc, ih, runsB]
      · simp [cpFold, hb, hc, ih, runsB]
    · have hb' : isBlank ln = false := by simpa using hb
      have hln := isBlank_false_ne_nil hb'
      by_cases hc : cur.isEmpty
      · have hcur : cur = [] := by simpa [List.isEmpty_iff] using hc
        simp [cpFold, hb', hc, hcur, ih, runsB, hln]
        omega
      · have hne : (cur ++ '\n' :: ln).isEmpty = false := by cases cur <;> rfl
        simp [cpFold, hb', hc, ih, runsB, hne]

theorem countParagraphs_eq_maximalRunCount (t : List Char) :
    countParagraphs t = maximalRunCount t := by
  simpa [countParagraphs, maximalRunCount, patL] using cpFold_length (splitLines t) [] []

theorem runsB_all_true {bs : List Bool} (h : ∀ b ∈ bs, b = true) :
    ∀ r, runsB r bs = 0 := by
  induction bs with
  | nil => intro r; rfl
  | cons b rest ih =>
    intro r
    have hb : b = true := h b (by simp)
    simp [runsB, hb, ih (fun x hx => h x (by simp [hx]))]

/-- C2: countParagraphs is a deterministic pure function returning, for every
input text, the number of maximal runs of consecutive non-blank lines (a line
being blank iff it is empty after trimming surrounding whitespace); it returns
0 for the empty string and for all-blank input, 2 for "a\n\nb", and 2 for
"a\nb\n\n\n\nc". -/
theorem c2_countParagraphs_spec :
    (∀ t : List Char, countParagraphs t = maximalRunCount t) ∧
    countParagraphs [] = 0 ∧
    (∀ t : List Char, (splitLines t).all isBlank → countParagraphs t = 0) ∧
    countParagraphs "a\n\nb".toList = 2 ∧
    countParagraphs "a\nb\n\n\n\nc".toList = 2 := by
  refine ⟨countParagraphs_eq_maximalRunCount, by decide, ?_, by decide, by decide⟩
  intro t h
  rw [countParagraphs_eq_maximalRunCount]
  exact runsB_all_true (by simpa [patL, List.all_eq_true] using h) false

theorem c2_countParagraphs_spec_witness :
    countParagraphs " x\ny\n\nz".toList = maximalRunCount " x\ny\n\nz".toList ∧
    ((splitLines " \n\t".toList).all isBlank = true ∧
      countParagraphs " \n\t".toList = 0) :=
  ⟨c2_countParagraphs_spec.1 _, by decide, c2_countParagraphs_spec.2.2.1 _ (by decide)⟩

/-- The three strategy families (TXTFactory, HTMLFactory, BINFactory) as a
closed variant type. -/
inductive Fmt
  | plain
  | markup
  | raw
  deriving DecidableEq, Repr

/-- QString::toLower, modelled character-wise on the ASCII range. -/
def toLowerL (l : List Char) : List Char := l.map Char.toLower

/-- factoryForExtension from src/main.cpp lines 232-237: exact string
comparisons against txt / html / htm / bin, any other extension falling back
to the plain-text factory. -/
def factoryForExtension (ext : List Char) : Fmt :=
  if ext = "txt".toList then .plain
  else if ext = "html".toList ∨ ext = "htm".toList then .markup
  else if ext = "bin".toList then .raw
  else .plain

/-- The factory lookup as both call sites perform it (src/main.cpp lines 243-244,
258, 260, 277): the extension is passed through toLower before reaching
factoryForExtension. -/
def lookupFactory (ext : List Char) : Fmt := factoryForExtension (toLowerL ext)

/-- C3 counterexample: factoryForExtension itself is not case-insensitive.
"html" selects the markup strategy but its letter-case variant "HTML" falls
into the plain fallback, and likewise "Bin" versus "bin". -/
theorem c3_factory_cex :
    factoryForExtension "html".toList = Fmt.markup ∧
    factoryForExtension "HTML".toList = Fmt.plain ∧
    factoryForExtension "bin".toList = Fmt.raw ∧
    factoryForExtension "Bin".toList = Fmt.plain ∧
    Fmt.plain ≠ Fmt.markup := by decide

/-- C3 (amended): the factory is a pure exact-match function of the extension
string: "txt" maps to plain, "html" and "htm" to markup, "bin" to raw, and
every other value (including "") to plain.  Since every call site lowercases
the extension first, the composed lookup is case-insensitive: it agrees on any
two extensions equal up to letter case, sending "TXT" to plain, "HTML" to
markup and "Bin" to raw; factoryForExtension on an uppercase variant such as
"TXT" yields plain only through the fallback. -/
theorem c3_factory_amended :
    factoryForExtension "txt".toList = Fmt.plain ∧
    factoryForExtension "html".toList = Fmt.markup ∧
    factoryForExtension "htm".toList = Fmt.markup ∧
    factoryForExtension "bin".toList = Fmt.raw ∧
    factoryForExtension [] = Fmt.plain ∧
    (∀ e : List Char, e ≠ "txt".toList → e ≠ "html".toList → e ≠ "htm".toList →
      e ≠ "bin".toList → factoryForExtension e = Fmt.plain) ∧
    (∀ e₁ e₂ : List Char, toLowerL e₁ = toLowerL e₂ →
      lookupFactory e₁ = lookupFactory e₂) ∧
    lookupFactory "TXT".toList = Fmt.plain ∧
    lookupFactory "HTML".toList = Fmt.markup ∧
    lookupFactory "Bin".toList = Fmt.raw := by
  refine ⟨by decide, by decide, by decide, by decide, by decide, ?_, ?_,
    by decide, by decide, by decide⟩
  · intro e h1 h2 h3 h4
    unfold factoryForExtension
    rw [if_neg h1, if_neg (not_or.mpr ⟨h2, h3⟩), if_neg h4]
  · intro e₁ e₂ h
    simp [lookupFactory, h]

theorem c3_factory_amended_witness :
    factoryForExtension "docx".toList = Fmt.plain ∧
    (toLowerL "HtM".toList = toLowerL "htM".toList ∧
      lookupFactory "HtM".toList = lookupFactory "htM".toList) :=
  ⟨c3_factory_amended.2.2.2.2.2.1 _ (by decide) (by decide) (by decide) (by decide),
    by decide, c3_factory_amended.2.2.2.2.2.2.1 _ _ (by decide)⟩

/-- Subject::add from src/main.cpp line 167: append an observer unless the
pointer is null or already subscribed.  Observer handles are modelled as
naturals with 0 in the role of the null pointer. -/
def subjectAdd (o : Nat) (obs : List Nat) : List Nat :=
  if o ≠ 0 ∧ ¬ obs.contains o then obs ++ [o] else obs

/-- Subject::notifyDeleted from src/main.cpp line 169: invoke
onParagraphsDeleted(n) on each subscriber in list order; modelled as the trace
of (observer, argument) invocations. -/
def notifyDeletedTrace (obs : List Nat) (n : Nat) : List (Nat × Nat) :=
  match obs with
  | [] => []
  | o :: rest => (o, n) :: notifyDeletedTrace rest n

theorem notifyDeletedTrace_eq_map (obs : List Nat) (n : Nat) :
    notifyDeletedTrace obs n = obs.map (fun o => (o, n)) := by
  induction obs with
  | nil => rfl
  | cons o rest ih => simp [notifyDeletedTrace, ih]

/-- C8: subscribing an observer that is already registered leaves the
subscriber list unchanged, and notifyParagraphsDeleted(n) invokes every
current subscriber exactly once, synchronously, in registration order, each
receiving n; with subscribers [A, B], notifyParagraphsDeleted(3) invokes A
then B, each exactly once, each receiving 3. -/
theorem c8_subject_spec :
    (∀ (o : Nat) (obs : List Nat), o ∈ obs → subjectAdd o obs = obs) ∧
    (∀ (obs : List Nat) (n : Nat),
      notifyDeletedTrace obs n = obs.map (fun o => (o, n))) ∧
    (∀ (o : Nat) (obs : List Nat), obs.Nodup → (subjectAdd o obs).Nodup) ∧
    (∀ (obs : List Nat) (n o : Nat), obs.Nodup → o ∈ obs →
      (notifyDeletedTrace obs n).count (o, n) = 1) ∧
    notifyDeletedTrace [1, 2] 3 = [(1, 3), (2, 3)] := by
  refine ⟨?_, notifyDeletedTrace_eq_map, ?_, ?_, by decide⟩
  · intro o obs h
    simp [subjectAdd, h]
  · intro o obs h
    by_cases hmem : o ∈ obs
    · simp [subjectAdd, hmem, h]
    · by_cases ho : o = 0
      · simp [subjectAdd, ho, h]
      · simp [subjectAdd, hmem, ho, List.nodup_append, h]
  · intro obs n o hnd hmem
    induction obs with
    | nil => simp at hmem
    | cons x rest ih =>
      rcases List.mem_cons.mp hmem with h | h
      · subst h
        have hx : o ∉ rest := (List.nodup_cons.mp hnd).1
        have hz : (notifyDeletedTrace rest n).count (o, n) = 0 := by
          rw [List.count_eq_zero, notifyDeletedTrace_eq_map]
          simpa using hx
        simp [notifyDeletedTrace, List.count_cons, hz]
      · have hrec := ih (List.nodup_cons.mp hnd).2 h
        have hxo : x ≠ o := by
          rintro rfl
          exact (List.nodup_cons.mp hnd).1 h
        simp [notifyDeletedTrace, List.count_cons, hrec, Ne.symm hxo]

theorem c8_subject_spec_witness :
    subjectAdd 2 [1, 2] = [1, 2] ∧
    List.Nodup (subjectAdd 3 [1, 2]) ∧
    (notifyDeletedTrace [1, 2] 3).count (2, 3) = 1 :=
  ⟨c8_subject_spec.1 2 [1, 2] (by decide),
    c8_subject_spec.2.2.1 3 [1, 2] (by decide),
    c8_subject_spec.2.2.2.1 [1, 2] 3 2 (by decide) (by decide)⟩

/-- QString::startsWith. -/
def startsWithL (pre l : List Char) : Bool := pre.isPrefixOf l

/-- Separator contribution of one tag body, from the tag-close branch of
htmlToPlain (src/main.cpp lines 74-78): after trimming and lowercasing, a tag
name starting with "br" (or "br/") contributes two newlines, and so does a
name starting with "p" or "/p"; every other tag contributes nothing. -/
def tagOut (tag : List Char) : List Char :=
  let t := toLowerL (trimQ tag)
  (if startsWithL "br".toList t || startsWithL "br/".toList t
    then "\n\n".toList else []) ++
  (if startsWithL "p".toList t || startsWithL "/p".toList t
    then "\n\n".toList else [])

/-- The character loop of htmlToPlain (src/main.cpp lines 70-86): drop tag
text, emitting tagOut at each tag close; a second opening angle bracket while
inside a tag restarts the tag accumulator. -/
def stripTags : List Char → Bool → List Char → List Char
  | [], _, _ => []
  | c :: cs, inTag, tag =>
    if c = '<' then stripTags cs true []
    else if inTag then
      (if c = '>' then tagOut tag ++ stripTags cs false []
       else stripTags cs true (tag ++ [c]))
    else c :: stripTags cs false tag

/-- The blank-collapsing loop of htmlToPlain (src/main.cpp lines 87-93): a
blank line is kept as a bare newline only while the running blank count is at
most two; a non-blank line is emitted as itself plus a newline. -/
def collapseBlanks : List (List Char) → Nat → List Char
  | [], _ => []
  | ln :: rest, ec =>
    if isBlank ln then
      (if ec + 1 ≤ 2 then '\n' :: collapseBlanks rest (ec + 1)
       else collapseBlanks rest (ec + 1))
    else ln ++ '\n' :: collapseBlanks rest 0

/-- htmlToPlain from src/main.cpp lines 65-95: strip tags, collapse blank
lines, trim the result. -/
def htmlToPlain (html : List Char) : List Char :=
  trimQ (collapseBlanks (splitLines (stripTags html false [])) 0)

/-- QString::toHtmlEscaped on one character: escape the angle brackets, the
ampersand and the double quote, leave everything else alone. -/
def escChar (c : Char) : List Char :=
  if c = '<' then "&lt;".toList
  else if c = '>' then "&gt;".toList
  else if c = '&' then "&amp;".toList
  else if c = '"' then "&quot;".toList
  else [c]

/-- QString::toHtmlEscaped. -/
def toHtmlEscaped : List Char → List Char
  | [] => []
  | c :: cs => escChar c ++ toHtmlEscaped cs

/-- QString::split("\n\n"): cut at each non-overlapping, left-to-right
occurrence of two consecutive newlines, keeping empty parts. -/
def splitNN : List Char → List (List Char)
  | [] => [[]]
  | [c] => [[c]]
  | c1 :: c2 :: cs =>
    if c1 = '\n' ∧ c2 = '\n' then [] :: splitNN cs
    else consHead c1 (splitNN (c2 :: cs))

/-- The paragraph list HTMLSaver::save writes (src/main.cpp line 114): split
the text on "\n\n" with Qt::SkipEmptyParts. -/
def htmlParas (t : List Char) : List (List Char) :=
  (splitNN t).filter (fun p => !p.isEmpty)

/-- The file content written by HTMLSaver::save (src/main.cpp lines 109-120):
a fixed envelope around one escaped p element per part. -/
def htmlSaveContent (t : List Char) : List Char :=
  "<html><body>\n".toList ++
  ((htmlParas t).map
    (fun p => "<p>".toList ++ toHtmlEscaped p ++ "</p>\n".toList)).flatten ++
  "\n</body></html>\n".toList

/-- C9: the markup saver partitions the text by splitting on exact occurrences
of "\n\n" and dropping empty parts, which differs from the paragraph counter's
blank-line rule: on "a\n \nb" (the middle line holds a single space)
countParagraphs returns 2 but the saver writes a single paragraph element. -/
theorem c9_saver_split_mismatch :
    countParagraphs "a\n \nb".toList = 2 ∧
    htmlParas "a\n \nb".toList = ["a\n \nb".toList] ∧
    (htmlParas "a\n \nb".toList).length = 1 ∧
    (htmlParas "a\n \nb".toList).length ≠ countParagraphs "a\n \nb".toList := by
  decide

theorem consHead_ne_nil (c : Char) (X : List (List Char)) : consHead c X ≠ [] := by
  cases X <;> simp [consHead]

theorem splitLines_ne_nil (l : List Char) : splitLines l ≠ [] := by
  cases l with
  | nil => simp [splitLines]
  | cons c cs =>
    by_cases h : c = '\n'
    · simp [splitLines, h]
    · simp only [splitLines, if_neg h]
      exact consHead_ne_nil c _

theorem consHead_append (c : Char) {X : List (List Char)} (h : X ≠ [])
    (Y : List (List Char)) : consHead c (X ++ Y) = consHead c X ++ Y := by
  cases X with
  | nil => exact absurd rfl h
  | cons a as => simp [consHead]

theorem splitLines_append_nl (a b : List Char) :
    splitLines (a ++ '\n' :: b) = splitLines a ++ splitLines b := by
  induction a with
  | nil => simp [splitLines]
  | cons c a' ih =>
    by_cases h : c = '\n'
    · simp only [List.cons_append, splitLines, if_pos h, List.append_eq]
      rw [ih]
    · simp only [List.cons_append, splitLines, if_neg h, List.append_eq]
      rw [ih]
      exact consHead_append c (splitLines_ne_nil a') _

theorem splitLines_no_newline : ∀ (l : List Char), ∀ ln ∈ splitLines l, '\n' ∉ ln := by
  intro l
  induction l with
  | nil =>
    intro ln h
    simp [splitLines] at h
    simp [h]
  | cons c cs ih =>
    intro ln h
    by_cases hc : c = '\n'
    · simp only [splitLines, if_pos hc] at h
      rcases List.mem_cons.mp h with h | h
      · simp [h]
      · exact ih ln h
    · rcases hsp : splitLines cs with _ | ⟨h0, r⟩
      · exact absurd hsp (splitLines_ne_nil cs)
      · simp only [splitLines, if_neg hc, hsp, consHead] at h
        rcases List.mem_cons.mp h with h | h
        · subst h
          intro hm
          rcases List.mem_cons.mp hm with h | h
          · exact hc h.symm
          · exact ih h0 (by simp [hsp]) h
        · exact ih ln (by simp [hsp, h])

/-- The in-a-run state after processing a blankness pattern. -/
def afterRuns (r : Bool) (x : List Bool) : Bool := x.foldl (fun _ b => !b) r

theorem runsB_append (x y : List Bool) :
    ∀ r, runsB r (x ++ y) = runsB r x + runsB (afterRuns r x) y := by
  induction x with
  | nil => intro r; simp [runsB, afterRuns]
  | cons b bs ih =>
    intro r
    cases b
    · cases r <;> simp [runsB, afterRuns, ih] <;> omega
    · cases r <;> simp [runsB, afterRuns, ih]

theorem isBlank_eq_all (ln : List Char) : isBlank ln = ln.all isQtSpace := by
  by_cases h : ln.all isQtSpace = true
  · have h1 : ln.dropWhile isQtSpace = [] :=
      List.dropWhile_eq_nil_iff.mpr (fun a ha => List.all_eq_true.mp h a ha)
    simp [isBlank, trimQ, h1, dropTrail, h]
  · have h2 : ¬ ∀ a ∈ ln, isQtSpace a := by simpa [List.all_eq_true] using h
    push_neg at h2
    rcases h2 with ⟨a, ha, hna⟩
    have hmem : a ∈ ln.dropWhile isQtSpace := by
      have hsplit := List.takeWhile_append_dropWhile (p := isQtSpace) (l := ln)
      rcases List.mem_append.mp (hsplit ▸ ha) with hm | hm
      · exact absurd (List.mem_takeWhile_imp hm) hna
      · exact hm
    have h3 : trimQ ln ≠ [] := by
      intro hnil
      rw [trimQ, dropTrail] at hnil
      have h4 : (ln.dropWhile isQtSpace).reverse.dropWhile isQtSpace = [] := by
        simpa [List.reverse_eq_nil_iff] using hnil
      have h5 := List.dropWhile_eq_nil_iff.mp h4
      exact hna (h5 a (List.mem_reverse.mpr hmem))
    have h6 : (trimQ ln).isEmpty = false := by
      cases htr : trimQ ln with
      | nil => exact absurd htr h3
      | cons x xs => rfl
    rw [isBlank, h6]
    exact (Bool.eq_false_iff.mpr h).symm

theorem patL_cons_nl (l : List Char) : patL ('\n' :: l) = true :: patL l := by
  simp [patL, splitLines, isBlank_nil]

theorem patL_cons_noNl {c : Char} (h : c ≠ '\n') (l : List Char) :
    ∃ b P, patL l = b :: P ∧ patL (c :: l) = (isQtSpace c && b) :: P := by
  rcases hsp : splitLines l with _ | ⟨h0, r⟩
  · exact absurd hsp (splitLines_ne_nil l)
  · refine ⟨isBlank h0, r.map isBlank, by simp [patL, hsp], ?_⟩
    simp [patL, splitLines, h, hsp, consHead, isBlank_eq_all, List.all_cons]

theorem mrc_cons_ws {c : Char} (h : isQtSpace c = true) (l : List Char) :
    maximalRunCount (c :: l) = maximalRunCount l := by
  by_cases hn : c = '\n'
  · subst hn
    rw [maximalRunCount, patL_cons_nl]
    simp [runsB, maximalRunCount]
  · rcases patL_cons_noNl hn l with ⟨b, P, h1, h2⟩
    simp [maximalRunCount, h2, h1, h]

theorem mrc_dropWhile (l : List Char) :
    maximalRunCount (l.dropWhile isQtSpace) = maximalRunCount l := by
  induction l with
  | nil => rfl
  | cons c cs ih =>
    by_cases h : isQtSpace c
    · simp [List.dropWhile_cons, h, ih, mrc_cons_ws h]
    · simp [List.dropWhile_cons, h]

/-- Append a character to the last part of a split (mirror image of
`consHead`). -/
def snocLast (c : Char) : List (List Char) → List (List Char)
  | [] => [[c]]
  | h :: r => if r.isEmpty then [h ++ [c]] else h :: snocLast c r

theorem consHead_snocLast (d c : Char) (X : List (List Char)) (hX : X ≠ []) :
    consHead d (snocLast c X) = snocLast c (consHead d X) := by
  cases X with
  | nil => exact absurd rfl hX
  | cons h0 r =>
    cases r with
    | nil => simp [snocLast, consHead]
    | cons h1 r' => simp [snocLast, consHead]

theorem splitLines_snoc {c : Char} (h : c ≠ '\n') (l : List Char) :
    splitLines (l ++ [c]) = snocLast c (splitLines l) := by
  induction l with
  | nil => simp [splitLines, h, consHead, snocLast]
  | cons d l' ih =>
    by_cases hd : d = '\n'
    · have hie : (splitLines l').isEmpty = false := by
        rcases hsp : splitLines l' with _ | ⟨h0, r⟩
        · exact absurd hsp (splitLines_ne_nil l')
        · rfl
      simp only [List.cons_append, splitLines, if_pos hd, List.append_eq]
      rw [ih]
      simp [snocLast, hie]
    · simp only [List.cons_append, splitLines, if_neg hd, List.append_eq]
      rw [ih, consHead_snocLast d c _ (splitLines_ne_nil l')]

theorem map_isBlank_snocLast_ws {c : Char} (h : isQtSpace c = true) :
    ∀ X : List (List Char), X ≠ [] →
      (snocLast c X).map isBlank = X.map isBlank := by
  intro X
  induction X with
  | nil => intro hX; exact absurd rfl hX
  | cons h0 r ih =>
    intro _
    cases r with
    | nil => simp [snocLast, isBlank_eq_all, List.all_append, h]
    | cons h1 r' =>
      have hs : snocLast c (h0 :: h1 :: r') = h0 :: snocLast c (h1 :: r') := by
        simp [snocLast]
      rw [hs]
      simp [ih (by simp)]

theorem map_isBlank_snocLast_nonws {c : Char} (h : isQtSpace c = false) :
    ∀ X : List (List Char), X ≠ [] →
      ∃ P b, X.map isBlank = P ++ [b] ∧
        (snocLast c X).map isBlank = P ++ [false] := by
  intro X
  induction X with
  | nil => intro hX; exact absurd rfl hX
  | cons h0 r ih =>
    intro _
    cases r with
    | nil =>
      refine ⟨[], isBlank h0, by simp, ?_⟩
      simp [snocLast, isBlank_eq_all, List.all_append, h]
    | cons h1 r' =>
      rcases ih (by simp) with ⟨P, b, e1, e2⟩
      have hs : snocLast c (h0 :: h1 :: r') = h0 :: snocLast c (h1 :: r') := by
        simp [snocLast]
      exact ⟨isBlank h0 :: P, b, by simp [e1], by rw [hs]; simp [e2]⟩

theorem mrc_snoc_ws {c : Char} (h : isQtSpace c = true) (l : List Char) :
    maximalRunCount (l ++ [c]) = maximalRunCount l := by
  by_cases hn : c = '\n'
  · subst hn
    have h1 : splitLines (l ++ ['\n']) = splitLines l ++ [[]] := by
      simpa [splitLines] using splitLines_append_nl l []
    rw [maximalRunCount, patL, h1, List.map_append, runsB_append]
    simp [isBlank_nil, runsB, maximalRunCount, patL]
  · rw [maximalRunCount, patL, splitLines_snoc hn,
      map_isBlank_snocLast_ws h _ (splitLines_ne_nil l)]
    rfl

theorem mrc_dropTrail (l : List Char) :
    maximalRunCount (dropTrail l) = maximalRunCount l := by
  induction l using List.reverseRecOn with
  | nil => rfl
  | append_singleton l' c ih =>
    by_cases h : isQtSpace c
    · have hdt : dropTrail (l' ++ [c]) = dropTrail l' := by
        simp [dropTrail, List.dropWhile_cons, h]
      rw [hdt, ih, mrc_snoc_ws h]
    · have hdt : dropTrail (l' ++ [c]) = l' ++ [c] := by
        simp [dropTrail, List.dropWhile_cons, h]
      rw [hdt]

theorem mrc_trimQ (l : List Char) : maximalRunCount (trimQ l) = maximalRunCount l := by
  rw [trimQ, mrc_dropTrail, mrc_dropWhile]

theorem splitLines_of_no_newline {w : List Char} (h : '\n' ∉ w) :
    splitLines w = [w] := by
  induction w with
  | nil => rfl
  | cons c w' ih =>
    have hc : c ≠ '\n' := fun hc => h (by simp [hc])
    have hw' : '\n' ∉ w' := fun hm => h (by simp [hm])
    simp [splitLines, hc, ih hw', consHead]

/-- The blank-collapsing loop of htmlToPlain at the level of blankness
patterns. -/
def collapseP : List Bool → Nat → List Bool
  | [], _ => []
  | b :: r, ec =>
    if b then
      (if ec + 1 ≤ 2 then true :: collapseP r (ec + 1) else collapseP r (ec + 1))
    else false :: collapseP r 0

theorem patL_collapseBlanks :
    ∀ (L : List (List Char)) (ec : Nat), (∀ ln ∈ L, '\n' ∉ ln) →
      patL (collapseBlanks L ec) = collapseP (L.map isBlank) ec ++ [true] := by
  intro L
  induction L with
  | nil =>
    intro ec _
    simp [collapseBlanks, collapseP, patL, splitLines, isBlank_nil]
  | cons ln rest ih =>
    intro ec h
    have hrest : ∀ x ∈ rest, '\n' ∉ x := fun x hx => h x (by simp [hx])
    by_cases hb : isBlank ln
    · by_cases hec : ec + 1 ≤ 2
      · rw [show collapseBlanks (ln :: rest) ec = '\n' :: collapseBlanks rest (ec + 1) by
          simp [collapseBlanks, hb, hec]]
        rw [patL_cons_nl, ih (ec + 1) hrest]
        simp [collapseP, hb, hec]
      · rw [show collapseBlanks (ln :: rest) ec = collapseBlanks rest (ec + 1) by
          simp [collapseBlanks, hb, hec]]
        rw [ih (ec + 1) hrest]
        simp [collapseP, hb, hec]
    · have hb' : isBlank ln = false := by simpa using hb
      have hnl : '\n' ∉ ln := h ln (by simp)
      rw [show collapseBlanks (ln :: rest) ec = ln ++ '\n' :: collapseBlanks rest 0 by
        simp [collapseBlanks, hb']]
      rw [patL, splitLines_append_nl, List.map_append, splitLines_of_no_newline hnl]
      rw [show (splitLines (collapseBlanks rest 0)).map isBlank = patL (collapseBlanks rest 0) from rfl]
      rw [ih 0 hrest]
      simp [collapseP, hb']

theorem runsB_collapseP :
    ∀ (P : List Bool) (ec : Nat) (r : Bool), (r = true → ec = 0) →
      runsB r (collapseP P ec) = runsB r P := by
  intro P
  induction P with
  | nil => intro ec r _; rfl
  | cons b rest ih =>
    intro ec r hr
    cases b
    · simp [collapseP, runsB, ih 0 true (fun _ => rfl)]
    · by_cases hec : ec + 1 ≤ 2
      · simp [collapseP, hec, runsB, ih (ec + 1) false (by simp)]
      · have hr' : r = false := by
          cases r
          · rfl
          · exact absurd (hr rfl) (by omega)
        subst hr'
        simp [collapseP, hec, runsB, ih (ec + 1) false (by simp)]

theorem mrc_collapseBlanks (L : List (List Char)) (h : ∀ ln ∈ L, '\n' ∉ ln) :
    maximalRunCount (collapseBlanks L 0) = runsB false (L.map isBlank) := by
  rw [maximalRunCount, patL_collapseBlanks L 0 h, runsB_append]
  rw [runsB_collapseP _ 0 false (by simp)]
  simp [runsB]

theorem mrc_htmlToPlain (html : List Char) :
    maximalRunCount (htmlToPlain html) =
      maximalRunCount (stripTags html false []) := by
  rw [htmlToPlain, mrc_trimQ,
    mrc_collapseBlanks _ (splitLines_no_newline (stripTags html false []))]
  rfl

theorem stripTags_no_lt :
    ∀ (w : List Char), '<' ∉ w → ∀ (rest tag : List Char),
      stripTags (w ++ rest) false tag = w ++ stripTags rest false tag := by
  intro w
  induction w with
  | nil => intro _ rest tag; rfl
  | cons c w' ih =>
    intro h rest tag
    have hc : c ≠ '<' := fun hcc => h (by simp [hcc])
    rw [show stripTags ((c :: w') ++ rest) false tag =
        c :: stripTags (w' ++ rest) false tag from by simp [stripTags, hc]]
    rw [ih (fun hm => h (by simp [hm])) rest tag]
    rfl

theorem no_lt_escChar (c : Char) : '<' ∉ escChar c := by
  by_cases h1 : c = '<'
  · simp [escChar, h1]
  · by_cases h2 : c = '>'
    · simp [escChar, h1, h2]
    · by_cases h3 : c = '&'
      · simp [escChar, h1, h2, h3]
      · by_cases h4 : c = '"'
        · simp [escChar, h1, h2, h3, h4]
        · simp [escChar, h1, h2, h3, h4]
          exact fun he => h1 he.symm

theorem no_lt_toHtmlEscaped (p : List Char) : '<' ∉ toHtmlEscaped p := by
  induction p with
  | nil => simp [toHtmlEscaped]
  | cons c p' ih =>
    simp only [toHtmlEscaped]
    intro hm
    rcases List.mem_append.mp hm with hm | hm
    · exact no_lt_escChar c hm
    · exact ih hm

/-- Two-newline contribution of the p open tag, with anything following. -/
theorem stripTags_p_open (X : List Char) :
    stripTags ("<p>".toList ++ X) false [] = '\n' :: '\n' :: stripTags X false [] := rfl

theorem stripTags_p_close (X : List Char) :
    stripTags ("</p>\n".toList ++ X) false [] =
      '\n' :: '\n' :: '\n' :: stripTags X false [] := rfl

theorem stripTags_header (X : List Char) :
    stripTags ("<html><body>\n".toList ++ X) false [] =
      '\n' :: stripTags X false [] := rfl

/-- The tag-stripped body of a saved document: what the character loop leaves
of the p elements and the closing envelope. -/
def strippedBody : List (List Char) → List Char
  | [] => "\n\n".toList
  | p :: ps =>
    "\n\n".toList ++ toHtmlEscaped p ++ "\n\n\n".toList ++ strippedBody ps

theorem stripTags_seg :
    ∀ ps : List (List Char),
      stripTags ((ps.map
          (fun p => "<p>".toList ++ toHtmlEscaped p ++ "</p>\n".toList)).flatten ++
        "\n</body></html>\n".toList) false [] = strippedBody ps := by
  intro ps
  induction ps with
  | nil => rfl
  | cons p ps ih =>
    simp only [List.map_cons, List.flatten_cons]
    rw [List.append_assoc, List.append_assoc, List.append_assoc]
    rw [stripTags_p_open, stripTags_no_lt _ (no_lt_toHtmlEscaped p),
      stripTags_p_close, ih]
    simp [strippedBody]

theorem stripTags_htmlSaveContent (t : List Char) :
    stripTags (htmlSaveContent t) false [] = '\n' :: strippedBody (htmlParas t) := by
  rw [htmlSaveContent, List.append_assoc, stripTags_header, stripTags_seg]

theorem escChar_of_nl : escChar '\n' = ['\n'] := by decide

theorem no_nl_escChar {c : Char} (h : c ≠ '\n') : '\n' ∉ escChar c := by
  by_cases h1 : c = '<'
  · simp [escChar, h1]
  · by_cases h2 : c = '>'
    · simp [escChar, h1, h2]
    · by_cases h3 : c = '&'
      · simp [escChar, h1, h2, h3]
      · by_cases h4 : c = '"'
        · simp [escChar, h1, h2, h3, h4]
        · simp [escChar, h1, h2, h3, h4]
          exact fun he => h (he.symm)

/-- Prepend a chunk with no newline to the first part of a split. -/
def consHeadL (w : List Char) : List (List Char) → List (List Char)
  | [] => [w]
  | h :: r => (w ++ h) :: r

theorem consHead_consHeadL (c : Char) (w : List Char) (X : List (List Char)) :
    consHead c (consHeadL w X) = consHeadL (c :: w) X := by
  cases X <;> simp [consHead, consHeadL]

theorem splitLines_append_no_nl :
    ∀ (w : List Char), '\n' ∉ w → ∀ (x : List Char),
      splitLines (w ++ x) = consHeadL w (splitLines x) := by
  intro w
  induction w with
  | nil =>
    intro _ x
    rcases hsp : splitLines x with _ | ⟨h0, r⟩
    · exact absurd hsp (splitLines_ne_nil x)
    · simp [consHeadL, hsp]
  | cons c w' ih =>
    intro h x
    have hc : c ≠ '\n' := fun hcc => h (by simp [hcc])
    simp only [List.cons_append, splitLines, if_neg hc, List.append_eq]
    rw [ih (fun hm => h (by simp [hm])) x, consHead_consHeadL]

theorem splitLines_toHtmlEscaped :
    ∀ p : List Char, splitLines (toHtmlEscaped p) = (splitLines p).map toHtmlEscaped := by
  intro p
  induction p with
  | nil => simp [toHtmlEscaped, splitLines]
  | cons c p' ih =>
    by_cases hc : c = '\n'
    · subst hc
      rw [show toHtmlEscaped ('\n' :: p') = '\n' :: toHtmlEscaped p' from by
        simp [toHtmlEscaped, escChar_of_nl]]
      simp only [splitLines, if_pos rfl]
      rw [ih]
      simp [toHtmlEscaped]
    · rw [show toHtmlEscaped (c :: p') = escChar c ++ toHtmlEscaped p' from rfl]
      rw [splitLines_append_no_nl _ (no_nl_escChar hc), ih]
      rcases hsp : splitLines p' with _ | ⟨h0, r⟩
      · exact absurd hsp (splitLines_ne_nil p')
      · simp only [splitLines, if_neg hc, hsp, consHead, consHeadL, List.map_cons]
        rw [show toHtmlEscaped (c :: h0) = escChar c ++ toHtmlEscaped h0 from rfl]

theorem all_isQtSpace_escChar (c : Char) :
    (escChar c).all isQtSpace = isQtSpace c := by
  by_cases h1 : c = '<'
  · subst h1; decide
  · by_cases h2 : c = '>'
    · subst h2; decide
    · by_cases h3 : c = '&'
      · subst h3; decide
      · by_cases h4 : c = '"'
        · subst h4; decide
        · simp [escChar, h1, h2, h3, h4]

theorem all_isQtSpace_toHtmlEscaped (ln : List Char) :
    (toHtmlEscaped ln).all isQtSpace = ln.all isQtSpace := by
  induction ln with
  | nil => rfl
  | cons c ln' ih =>
    rw [show toHtmlEscaped (c :: ln') = escChar c ++ toHtmlEscaped ln' from rfl]
    rw [List.all_append, all_isQtSpace_escChar, ih, List.all_cons]

theorem isBlank_toHtmlEscaped (ln : List Char) :
    isBlank (toHtmlEscaped ln) = isBlank ln := by
  rw [isBlank_eq_all, isBlank_eq_all, all_isQtSpace_toHtmlEscaped]

theorem patL_toHtmlEscaped (p : List Char) :
    patL (toHtmlEscaped p) = patL p := by
  rw [patL, patL, splitLines_toHtmlEscaped, List.map_map]
  exact List.map_congr_left (fun ln _ => isBlank_toHtmlEscaped ln)

theorem mrc_toHtmlEscaped (p : List Char) :
    maximalRunCount (toHtmlEscaped p) = maximalRunCount p := by
  rw [maximalRunCount, patL_toHtmlEscaped, maximalRunCount]

theorem runsB_true_true (s : Bool) (X : List Bool) :
    runsB s (true :: true :: X) = runsB false X := by
  simp [runsB]

theorem mrc_strippedBody :
    ∀ ps : List (List Char),
      maximalRunCount (strippedBody ps) = (ps.map maximalRunCount).sum := by
  intro ps
  induction ps with
  | nil => decide
  | cons p ps ih =>
    show maximalRunCount ('\n' :: '\n' ::
      ((toHtmlEscaped p ++ "\n\n\n".toList) ++ strippedBody ps)) = _
    rw [mrc_cons_ws (by decide), mrc_cons_ws (by decide), List.append_assoc]
    show maximalRunCount (toHtmlEscaped p ++ '\n' ::
      ('\n' :: '\n' :: strippedBody ps)) = _
    rw [maximalRunCount, patL, splitLines_append_nl, List.map_append, runsB_append]
    rw [show splitLines ('\n' :: '\n' :: strippedBody ps) =
        [] :: [] :: splitLines (strippedBody ps) from by simp [splitLines]]
    simp only [List.map_cons, isBlank_nil, runsB_true_true]
    rw [show (splitLines (toHtmlEscaped p)).map isBlank = patL (toHtmlEscaped p) from rfl]
    rw [show (splitLines (strippedBody ps)).map isBlank = patL (strippedBody ps) from rfl]
    rw [patL_toHtmlEscaped]
    rw [show runsB false (patL p) = maximalRunCount p from rfl]
    rw [show runsB false (patL (strippedBody ps)) = maximalRunCount (strippedBody ps) from rfl]
    rw [ih]
    simp

theorem splitNN_ne_nil (l : List Char) : splitNN l ≠ [] := by
  rcases l with _ | ⟨c1, _ | ⟨c2, cs⟩⟩
  · simp [splitNN]
  · simp [splitNN]
  · by_cases h : c1 = '\n' ∧ c2 = '\n'
    · simp [splitNN, h]
    · simp only [splitNN, if_neg h]
      exact consHead_ne_nil _ _

/-- Rebuild the text from its "\n\n" split: the inverse direction of splitNN. -/
def joinNN : List (List Char) → List Char
  | [] => []
  | x :: ys => x ++ (if ys.isEmpty then [] else '\n' :: '\n' :: joinNN ys)

theorem joinNN_consHead (c : Char) :
    ∀ X : List (List Char), X ≠ [] → joinNN (consHead c X) = c :: joinNN X := by
  intro X hX
  cases X with
  | nil => exact absurd rfl hX
  | cons x ys => simp [consHead, joinNN]

theorem joinNN_splitNN_le :
    ∀ (n : Nat) (l : List Char), l.length ≤ n → joinNN (splitNN l) = l := by
  intro n
  induction n with
  | zero =>
    intro l h
    have h0 : l = [] := List.eq_nil_of_length_eq_zero (Nat.le_zero.mp h)
    subst h0
    rfl
  | succ n ih =>
    intro l h
    rcases l with _ | ⟨c1, _ | ⟨c2, cs⟩⟩
    · rfl
    · rfl
    · by_cases hnn : c1 = '\n' ∧ c2 = '\n'
      · rw [show splitNN (c1 :: c2 :: cs) = [] :: splitNN cs from by simp [splitNN, hnn]]
        rw [show joinNN ([] :: splitNN cs) = '\n' :: '\n' :: joinNN (splitNN cs) from by
          rcases hsp : splitNN cs with _ | ⟨x, ys⟩
          · exact absurd hsp (splitNN_ne_nil cs)
          · simp [joinNN]]
        rw [ih cs (by simp at h; omega)]
        rw [hnn.1, hnn.2]
      · rw [show splitNN (c1 :: c2 :: cs) = consHead c1 (splitNN (c2 :: cs)) from by
          simp [splitNN, hnn]]
        rw [joinNN_consHead c1 _ (splitNN_ne_nil _)]
        rw [ih (c2 :: cs) (by simp at h ⊢; omega)]

theorem joinNN_splitNN (l : List Char) : joinNN (splitNN l) = l :=
  joinNN_splitNN_le l.length l (Nat.le_refl _)

theorem mrc_append_nlnl (a b : List Char) :
    maximalRunCount (a ++ '\n' :: '\n' :: b) =
      maximalRunCount a + maximalRunCount b := by
  rw [maximalRunCount, patL, splitLines_append_nl, List.map_append, runsB_append]
  rw [show splitLines ('\n' :: b) = [] :: splitLines b from by simp [splitLines]]
  simp only [List.map_cons, isBlank_nil]
  rw [show ∀ (s : Bool) (X : List Bool), runsB s (true :: X) = runsB false X from
    fun s X => by simp [runsB]]
  rfl

theorem mrc_joinNN :
    ∀ ps : List (List Char),
      maximalRunCount (joinNN ps) = (ps.map maximalRunCount).sum := by
  intro ps
  induction ps with
  | nil => decide
  | cons p ps ih =>
    cases ps with
    | nil => simp [joinNN]
    | cons q ps' =>
      rw [show joinNN (p :: q :: ps') = p ++ '\n' :: '\n' :: joinNN (q :: ps') from by
        simp [joinNN]]
      rw [mrc_append_nlnl, ih]
      simp

theorem mrc_filter_empty (ps : List (List Char)) :
    (((ps.filter (fun p => !p.isEmpty)).map maximalRunCount).sum : Nat) =
      ((ps.map maximalRunCount).sum : Nat) := by
  induction ps with
  | nil => rfl
  | cons p ps ih =>
    by_cases h : p.isEmpty
    · have hp : p = [] := by simpa [List.isEmpty_iff] using h
      subst hp
      simp [List.filter_cons, ih]
      decide
    · simp [List.filter_cons, h, ih]

theorem mrc_htmlParas_sum (t : List Char) :
    ((htmlParas t).map maximalRunCount).sum = maximalRunCount t := by
  rw [htmlParas, mrc_filter_empty]
  conv_rhs => rw [← joinNN_splitNN t]
  rw [mrc_joinNN]

/-- C4: for every text T, saving T with the markup strategy and loading the
written content back with the markup strategy yields a text with the same
paragraph count: countParagraphs (htmlToPlain (htmlSaveContent T)) =
countParagraphs T — even though the text itself need not round-trip exactly
(witnessed by "a<b", which reloads as its escaped form). -/
theorem c4_markup_paragraph_roundtrip :
    (∀ t : List Char,
      countParagraphs (htmlToPlain (htmlSaveContent t)) = countParagraphs t) ∧
    htmlToPlain (htmlSaveContent "a<b".toList) ≠ "a<b".toList := by
  constructor
  · intro t
    rw [countParagraphs_eq_maximalRunCount, countParagraphs_eq_maximalRunCount,
      mrc_htmlToPlain, stripTags_htmlSaveContent, mrc_cons_ws (by decide),
      mrc_strippedBody, mrc_htmlParas_sum]
  · decide

theorem tagOut_eq (b : List Char) :
    tagOut b =
      (if startsWithL "br".toList (toLowerL (trimQ b)) ||
          startsWithL "p".toList (toLowerL (trimQ b)) ||
          startsWithL "/p".toList (toLowerL (trimQ b))
        then ['\n', '\n'] else []) := by
  simp only [tagOut]
  generalize toLowerL (trimQ b) = t
  rcases t with _ | ⟨c1, _ | ⟨c2, t2⟩⟩
  · simp [startsWithL, List.isPrefixOf]
  · simp [startsWithL, List.isPrefixOf]
  · by_cases hb : 'b' = c1
    · by_cases hr : 'r' = c2
      · simp [startsWithL, List.isPrefixOf, ← hb, ← hr]
      · simp [startsWithL, List.isPrefixOf, ← hb, hr]
    · by_cases hp : 'p' = c1
      · simp [startsWithL, List.isPrefixOf, ← hp]
      · by_cases hs : '/' = c1
        · simp [startsWithL, List.isPrefixOf, ← hs]
        · simp [startsWithL, List.isPrefixOf, hb, hp, hs]

/-- A token stream for the tag machine: literal text between tags, and tags
given by their body (the text between the angle brackets). -/
inductive HtmlTok
  | lit (s : List Char)
  | tag (b : List Char)

/-- Concrete markup denoted by a token. -/
def renderTok : HtmlTok → List Char
  | .lit s => s
  | .tag b => '<' :: b ++ ['>']

/-- What the character loop of htmlToPlain emits for a token. -/
def tokOut : HtmlTok → List Char
  | .lit s => s
  | .tag b => tagOut b

/-- Well-formedness of a token: literal text holds no tag opener, a tag body
holds neither bracket. -/
def okTok : HtmlTok → Prop
  | .lit s => '<' ∉ s
  | .tag b => '<' ∉ b ∧ '>' ∉ b

theorem stripTags_in_tag :
    ∀ (b : List Char), '<' ∉ b → '>' ∉ b → ∀ (rest acc : List Char),
      stripTags (b ++ '>' :: rest) true acc =
        tagOut (acc ++ b) ++ stripTags rest false [] := by
  intro b
  induction b with
  | nil =>
    intro _ _ rest acc
    simp [stripTags]
  | cons c b' ih =>
    intro h1 h2 rest acc
    have hc1 : c ≠ '<' := fun hh => h1 (by simp [hh])
    have hc2 : c ≠ '>' := fun hh => h2 (by simp [hh])
    rw [show stripTags ((c :: b') ++ '>' :: rest) true acc =
        stripTags (b' ++ '>' :: rest) true (acc ++ [c]) from by
      simp [stripTags, hc1, hc2]]
    rw [ih (fun hm => h1 (by simp [hm])) (fun hm => h2 (by simp [hm])) rest (acc ++ [c])]
    simp

theorem stripTags_tokens :
    ∀ toks : List HtmlTok, (∀ tk ∈ toks, okTok tk) →
      stripTags ((toks.map renderTok).flatten) false [] =
        (toks.map tokOut).flatten := by
  intro toks
  induction toks with
  | nil => intro _; rfl
  | cons tk toks ih =>
    intro h
    have htk := h tk (by simp)
    have hrest : ∀ x ∈ toks, okTok x := fun x hx => h x (by simp [hx])
    cases tk with
    | lit s =>
      simp only [List.map_cons, List.flatten_cons, tokOut, renderTok]
      rw [stripTags_no_lt _ htk, ih hrest]
    | tag b =>
      simp only [List.map_cons, List.flatten_cons, tokOut, renderTok]
      rw [show ('<' :: b ++ ['>']) ++ (toks.map renderTok).flatten =
          '<' :: (b ++ '>' :: (toks.map renderTok).flatten) from by simp]
      rw [show stripTags ('<' :: (b ++ '>' :: (toks.map renderTok).flatten)) false [] =
          stripTags (b ++ '>' :: (toks.map renderTok).flatten) true [] from by
        simp [stripTags]]
      rw [stripTags_in_tag b htk.1 htk.2, ih hrest]
      simp

/-- Scan for three consecutive blank entries; `k` counts the blanks
immediately preceding. -/
def no3From (k : Nat) : List Bool → Bool
  | [] => true
  | b :: r => if b then (decide (k + 1 < 3) && no3From (k + 1) r) else no3From 0 r

/-- The blankness pattern never shows three blank lines in a row. -/
def noTripleBlank (P : List Bool) : Bool := no3From 0 P

/-- State of the blank-run counter after a pattern. -/
def tstate (k : Nat) (a : List Bool) : Nat :=
  a.foldl (fun s b => if b then s + 1 else 0) k

theorem no3From_append (a t : List Bool) :
    ∀ k, no3From k (a ++ t) = (no3From k a && no3From (tstate k a) t) := by
  induction a with
  | nil => intro k; simp [no3From, tstate]
  | cons b r ih =>
    intro k
    cases b
    · simp [no3From, ih, tstate]
    · by_cases hk : k + 1 < 3
      · simp [no3From, hk, ih, tstate]
      · simp [no3From, hk, tstate]

theorem no3From_of_append {a t : List Bool} {k : Nat}
    (h : no3From k (a ++ t) = true) : no3From k a = true := by
  rw [no3From_append] at h
  exact (Bool.and_eq_true_iff.mp h).1

theorem no3From_mono :
    ∀ (P : List Bool) (k k' : Nat), k' ≤ k → no3From k P = true → no3From k' P = true := by
  intro P
  induction P with
  | nil => intro k k' _ _; rfl
  | cons b r ih =>
    intro k k' hle h
    cases b
    · simpa [no3From] using ih 0 0 (Nat.le_refl 0) (by simpa [no3From] using h)
    · simp only [no3From] at h ⊢
      rcases Bool.and_eq_true_iff.mp h with ⟨h1, h2⟩
      have hk : k + 1 < 3 := of_decide_eq_true h1
      refine Bool.and_eq_true_iff.mpr ⟨decide_eq_true (by omega), ?_⟩
      exact ih (k + 1) (k' + 1) (by omega) h2

theorem no3From_collapseP :
    ∀ (P : List Bool) (ec : Nat), no3From (min ec 2) (collapseP P ec) = true := by
  intro P
  induction P with
  | nil => intro ec; rfl
  | cons b r ih =>
    intro ec
    cases b
    · simpa [collapseP, no3From] using
        no3From_mono _ (min 0 2) 0 (by omega) (ih 0)
    · by_cases hec : ec + 1 ≤ 2
      · rw [show collapseP (true :: r) ec = true :: collapseP r (ec + 1) from by
          simp [collapseP, hec]]
        simp only [no3From, if_pos rfl]
        refine Bool.and_eq_true_iff.mpr ⟨decide_eq_true (by omega), ?_⟩
        have := ih (ec + 1)
        rwa [show min (ec + 1) 2 = min ec 2 + 1 by omega] at this
      · rw [show collapseP (true :: r) ec = collapseP r (ec + 1) from by
          simp [collapseP, hec]]
        have := ih (ec + 1)
        rwa [show min (ec + 1) 2 = min ec 2 by omega] at this

/-- Remove the trailing blank entries of a pattern. -/
def dropTrailTrues (P : List Bool) : List Bool :=
  (P.reverse.dropWhile (fun b => b)).reverse

theorem dropTrailTrues_append_true (P : List Bool) :
    dropTrailTrues (P ++ [true]) = dropTrailTrues P := by
  simp [dropTrailTrues, List.dropWhile]

theorem dropTrailTrues_append_false (P : List Bool) :
    dropTrailTrues (P ++ [false]) = P ++ [false] := by
  simp [dropTrailTrues, List.dropWhile]

theorem dropTrailTrues_pre (P : List Bool) :
    ∃ t, P = dropTrailTrues P ++ t := by
  refine ⟨(P.reverse.takeWhile (fun b => b)).reverse, ?_⟩
  calc P = P.reverse.reverse := (List.reverse_reverse P).symm
  _ = ((P.reverse.takeWhile (fun b => b)) ++ (P.reverse.dropWhile (fun b => b))).reverse := by
      rw [List.takeWhile_append_dropWhile]
  _ = dropTrailTrues P ++ (P.reverse.takeWhile (fun b => b)).reverse := by
      rw [List.reverse_append, dropTrailTrues]

theorem no3_dTT_of_cons_true {P : List Bool}
    (h : no3From 0 (dropTrailTrues (true :: P)) = true) :
    no3From 0 (dropTrailTrues P) = true := by
  by_cases hP : P.reverse.dropWhile (fun b => b) = []
  · simp [dropTrailTrues, hP, no3From]
  · have h1 : dropTrailTrues (true :: P) = true :: dropTrailTrues P := by
      rw [dropTrailTrues, dropTrailTrues]
      rw [show (true :: P).reverse = P.reverse ++ [true] from by simp]
      rw [List.dropWhile_append]
      rw [if_neg (by simpa [List.isEmpty_iff] using hP)]
      simp
    rw [h1] at h
    simp only [no3From, if_pos rfl] at h
    have h2 : no3From 1 (dropTrailTrues P) = true := by simpa using h
    exact no3From_mono _ 1 0 (by omega) h2

theorem no3_dTT_collapse (L : List (List Char)) (h : ∀ ln ∈ L, '\n' ∉ ln) :
    no3From 0 (dropTrailTrues (patL (collapseBlanks L 0))) = true := by
  rw [patL_collapseBlanks L 0 h, dropTrailTrues_append_true]
  rcases dropTrailTrues_pre (collapseP (L.map isBlank) 0) with ⟨t, ht⟩
  have h4 := no3From_collapseP (L.map isBlank) 0
  rw [show min 0 2 = 0 from rfl] at h4
  rw [ht] at h4
  exact no3From_of_append h4

theorem no3_dTT_dropWhile :
    ∀ l : List Char, no3From 0 (dropTrailTrues (patL l)) = true →
      no3From 0 (dropTrailTrues (patL (l.dropWhile isQtSpace))) = true := by
  intro l
  induction l with
  | nil => intro h; exact h
  | cons c l' ih =>
    intro h
    by_cases hws : isQtSpace c
    · rw [List.dropWhile_cons, if_pos hws]
      apply ih
      by_cases hn : c = '\n'
      · subst hn
        rw [patL_cons_nl] at h
        exact no3_dTT_of_cons_true h
      · rcases patL_cons_noNl hn l' with ⟨b, P, h1, h2⟩
        rw [h2] at h
        rw [h1]
        simpa [hws] using h
    · rw [List.dropWhile_cons, if_neg hws]
      exact h

theorem no3_patL_dropTrail :
    ∀ l : List Char, no3From 0 (dropTrailTrues (patL l)) = true →
      noTripleBlank (patL (dropTrail l)) = true := by
  intro l
  induction l using List.reverseRecOn with
  | nil => intro _; decide
  | append_singleton l' c ih =>
    intro h
    by_cases hws : isQtSpace c
    · have hdt : dropTrail (l' ++ [c]) = dropTrail l' := by
        simp [dropTrail, List.dropWhile_cons, hws]
      rw [hdt]
      apply ih
      by_cases hn : c = '\n'
      · subst hn
        have h1 : patL (l' ++ ['\n']) = patL l' ++ [true] := by
          rw [patL, show splitLines (l' ++ ['\n']) = splitLines l' ++ [[]] from by
            simpa [splitLines] using splitLines_append_nl l' [], List.map_append]
          simp [isBlank_nil, patL]
        rw [h1, dropTrailTrues_append_true] at h
        exact h
      · have h1 : patL (l' ++ [c]) = patL l' := by
          rw [patL, splitLines_snoc hn, map_isBlank_snocLast_ws hws _ (splitLines_ne_nil l')]
          rfl
        rwa [h1] at h
    · have hdt : dropTrail (l' ++ [c]) = l' ++ [c] := by
        simp [dropTrail, List.dropWhile_cons, hws]
      rw [hdt]
      have hn : c ≠ '\n' := fun hc => hws (by rw [hc]; decide)
      have hws' : isQtSpace c = false := by simpa using hws
      rcases map_isBlank_snocLast_nonws hws' (splitLines l') (splitLines_ne_nil l')
        with ⟨P, b, e1, e2⟩
      have h1 : patL (l' ++ [c]) = P ++ [false] := by
        rw [patL, splitLines_snoc hn, e2]
      rw [noTripleBlank, h1]
      rw [h1, dropTrailTrues_append_false] at h
      exact h

theorem noTripleBlank_htmlToPlain (html : List Char) :
    noTripleBlank (patL (htmlToPlain html)) = true := by
  rw [htmlToPlain, trimQ]
  apply no3_patL_dropTrail
  apply no3_dTT_dropWhile
  exact no3_dTT_collapse _ (splitLines_no_newline _)

theorem dropWhile_ws_idem (l : List Char) :
    (l.dropWhile isQtSpace).dropWhile isQtSpace = l.dropWhile isQtSpace := by
  induction l with
  | nil => rfl
  | cons c l' ih =>
    by_cases h : isQtSpace c
    · simp [List.dropWhile_cons, h, ih]
    · simp [List.dropWhile_cons, h]

theorem dropTrail_idem (l : List Char) : dropTrail (dropTrail l) = dropTrail l := by
  rw [dropTrail, dropTrail, List.reverse_reverse, dropWhile_ws_idem]

theorem dropTrail_pre (l : List Char) : ∃ t, l = dropTrail l ++ t := by
  refine ⟨(l.reverse.takeWhile isQtSpace).reverse, ?_⟩
  calc l = l.reverse.reverse := (List.reverse_reverse l).symm
  _ = ((l.reverse.takeWhile isQtSpace) ++ (l.reverse.dropWhile isQtSpace)).reverse := by
      rw [List.takeWhile_append_dropWhile]
  _ = dropTrail l ++ (l.reverse.takeWhile isQtSpace).reverse := by
      rw [List.reverse_append, dropTrail]

theorem dropWhile_head_not (p : Char → Bool) :
    ∀ (l : List Char) (c : Char) (m' : List Char),
      l.dropWhile p = c :: m' → p c = false := by
  intro l
  induction l with
  | nil => intro c m' h; simp at h
  | cons a l' ih =>
    intro c m' h
    by_cases ha : p a
    · rw [List.dropWhile_cons, if_pos ha] at h
      exact ih c m' h
    · rw [List.dropWhile_cons, if_neg ha] at h
      obtain ⟨rfl, -⟩ := List.cons.injEq .. ▸ h
      simpa using ha

theorem dropWhile_dropTrail_comm (l : List Char) :
    (dropTrail (l.dropWhile isQtSpace)).dropWhile isQtSpace =
      dropTrail (l.dropWhile isQtSpace) := by
  rcases hm : l.dropWhile isQtSpace with _ | ⟨c, m'⟩
  · simp [dropTrail]
  · have hc : isQtSpace c = false := dropWhile_head_not isQtSpace l c m' hm
    rcases hdt : dropTrail (c :: m') with _ | ⟨d, r⟩
    · rfl
    · rcases dropTrail_pre (c :: m') with ⟨t, ht⟩
      rw [hdt] at ht
      have hd : d = c := by
        have := congrArg List.head? ht
        simpa using this.symm
      rw [List.dropWhile_cons, hd, hc]
      simp

theorem trimQ_idem (l : List Char) : trimQ (trimQ l) = trimQ l := by
  rw [trimQ, trimQ, dropWhile_dropTrail_comm, dropTrail_idem]

theorem trimQ_htmlToPlain (html : List Char) :
    trimQ (htmlToPlain html) = htmlToPlain html := by
  rw [htmlToPlain, trimQ_idem]

/-- C7: htmlToPlain strips all tags — on any well-formed token stream the
character loop keeps literal text and replaces each tag by its separator
contribution; a tag whose trimmed, lowercased name begins with "br", "p" or
"/p" inserts exactly two newlines and every other tag is discarded with no
content substituted; the output never holds three consecutive blank lines;
the result is trimmed (a fixed point of trimming); and entity sequences such
as "&amp;" are left undecoded. -/
theorem c7_htmlToPlain_spec :
    (∀ toks : List HtmlTok, (∀ tk ∈ toks, okTok tk) →
      stripTags ((toks.map renderTok).flatten) false [] =
        (toks.map tokOut).flatten) ∧
    (∀ b : List Char, tagOut b =
      (if startsWithL "br".toList (toLowerL (trimQ b)) ||
          startsWithL "p".toList (toLowerL (trimQ b)) ||
          startsWithL "/p".toList (toLowerL (trimQ b))
        then ['\n', '\n'] else [])) ∧
    (∀ html : List Char, noTripleBlank (patL (htmlToPlain html)) = true) ∧
    (∀ html : List Char, trimQ (htmlToPlain html) = htmlToPlain html) ∧
    htmlToPlain "x&amp;y".toList = "x&amp;y".toList :=
  ⟨stripTags_tokens, tagOut_eq, noTripleBlank_htmlToPlain, trimQ_htmlToPlain, by decide⟩

theorem c7_htmlToPlain_spec_witness :
    stripTags ((([HtmlTok.lit "Hi".toList, HtmlTok.tag "p id".toList,
        HtmlTok.lit "there".toList, HtmlTok.tag "em".toList]).map renderTok).flatten)
        false [] =
      ((([HtmlTok.lit "Hi".toList, HtmlTok.tag "p id".toList,
        HtmlTok.lit "there".toList, HtmlTok.tag "em".toList]).map tokOut).flatten) := by
  apply c7_htmlToPlain_spec.1
  intro tk htk
  simp only [List.mem_cons, List.not_mem_nil, or_false] at htk
  rcases htk with rfl | rfl | rfl | rfl
  · exact (by decide : ('<' ∉ "Hi".toList))
  · exact ⟨by decide, by decide⟩
  · exact (by decide : ('<' ∉ "there".toList))
  · exact ⟨by decide, by decide⟩

theorem char_toNat_lt (c : Char) : c.toNat < 1114112 := by
  show c.val.toNat < 1114112
  rcases c.valid with h | ⟨_, h⟩
  · have h2 : c.val.toNat < 55296 := h
    omega
  · exact h

/-- UTF-8 encoding of one character, as QString's UTF-8 codec produces for a
valid scalar value. -/
def utf8EncodeChar (c : Char) : List Nat :=
  let n := c.toNat
  if n < 128 then [n]
  else if n < 2048 then [192 + n / 64, 128 + n % 64]
  else if n < 65536 then [224 + n / 4096, 128 + n / 64 % 64, 128 + n % 64]
  else [240 + n / 262144, 128 + n / 4096 % 64, 128 + n / 64 % 64, 128 + n % 64]

/-- QString::toUtf8 over the whole text. -/
def utf8Encode : List Char → List Nat
  | [] => []
  | c :: cs => utf8EncodeChar c ++ utf8Encode cs

/-- One step of UTF-8 decoding: consume the bytes of the sequence headed by
b0 and return the decoded character together with the remaining bytes;
truncated sequences yield the replacement character. -/
def utf8DecodeStep (b0 : Nat) (bs : List Nat) : Char × List Nat :=
  if b0 < 128 then (Char.ofNat b0, bs)
  else if b0 < 224 then
    match bs with
    | b1 :: bs' => (Char.ofNat ((b0 - 192) * 64 + (b1 - 128)), bs')
    | [] => (Char.ofNat 65533, [])
  else if b0 < 240 then
    match bs with
    | b1 :: b2 :: bs' =>
      (Char.ofNat ((b0 - 224) * 4096 + (b1 - 128) * 64 + (b2 - 128)), bs')
    | _ => (Char.ofNat 65533, [])
  else
    match bs with
    | b1 :: b2 :: b3 :: bs' =>
      (Char.ofNat ((b0 - 240) * 262144 + (b1 - 128) * 4096 +
        (b2 - 128) * 64 + (b3 - 128)), bs')
    | _ => (Char.ofNat 65533, [])

theorem utf8DecodeStep_len (b0 : Nat) (bs : List Nat) :
    (utf8DecodeStep b0 bs).2.length ≤ bs.length := by
  rcases bs with _ | ⟨b1, _ | ⟨b2, _ | ⟨b3, bs'⟩⟩⟩ <;>
    by_cases h1 : b0 < 128 <;> by_cases h2 : b0 < 224 <;> by_cases h3 : b0 < 240 <;>
    simp [utf8DecodeStep, h1, h2, h3] <;> omega

/-- UTF-8 decoding as QString::fromUtf8 behaves on well-formed input. -/
def utf8Decode : List Nat → List Char
  | [] => []
  | b0 :: bs =>
    (utf8DecodeStep b0 bs).1 :: utf8Decode (utf8DecodeStep b0 bs).2
termination_by l => l.length
decreasing_by
  simp only [List.length_cons]
  exact Nat.lt_succ_of_le (utf8DecodeStep_len _ _)

theorem utf8Decode_cons (b0 : Nat) (bs : List Nat) :
    utf8Decode (b0 :: bs) =
      (utf8DecodeStep b0 bs).1 :: utf8Decode (utf8DecodeStep b0 bs).2 := by
  rw [utf8Decode]

theorem utf8Decode_encodeChar (c : Char) (rest : List Nat) :
    utf8Decode (utf8EncodeChar c ++ rest) = c :: utf8Decode rest := by
  have hval := char_toNat_lt c
  by_cases h1 : c.toNat < 128
  · rw [show utf8EncodeChar c = [c.toNat] from by simp [utf8EncodeChar, h1]]
    rw [show [c.toNat] ++ rest = c.toNat :: rest from rfl, utf8Decode_cons]
    simp [utf8DecodeStep, h1]
  · by_cases h2 : c.toNat < 2048
    · rw [show utf8EncodeChar c = [192 + c.toNat / 64, 128 + c.toNat % 64] from by
        simp [utf8EncodeChar, h1, h2]]
      rw [show [192 + c.toNat / 64, 128 + c.toNat % 64] ++ rest =
        (192 + c.toNat / 64) :: (128 + c.toNat % 64) :: rest from rfl, utf8Decode_cons]
      have hb0a : ¬ (192 + c.toNat / 64 < 128) := by omega
      have hb0b : 192 + c.toNat / 64 < 224 := by omega
      simp only [utf8DecodeStep, if_neg hb0a, if_pos hb0b]
      rw [show (192 + c.toNat / 64 - 192) * 64 + (128 + c.toNat % 64 - 128) =
        c.toNat from by omega]
      rw [Char.ofNat_toNat]
    · by_cases h3 : c.toNat < 65536
      · rw [show utf8EncodeChar c = [224 + c.toNat / 4096, 128 + c.toNat / 64 % 64,
          128 + c.toNat % 64] from by simp [utf8EncodeChar, h1, h2, h3]]
        rw [show [224 + c.toNat / 4096, 128 + c.toNat / 64 % 64, 128 + c.toNat % 64] ++
          rest = (224 + c.toNat / 4096) :: (128 + c.toNat / 64 % 64) ::
          (128 + c.toNat % 64) :: rest from rfl, utf8Decode_cons]
        have hb0a : ¬ (224 + c.toNat / 4096 < 128) := by omega
        have hb0b : ¬ (224 + c.toNat / 4096 < 224) := by omega
        have hb0c : 224 + c.toNat / 4096 < 240 := by omega
        simp only [utf8DecodeStep, if_neg hb0a, if_neg hb0b, if_pos hb0c]
        rw [show (224 + c.toNat / 4096 - 224) * 4096 +
          (128 + c.toNat / 64 % 64 - 128) * 64 + (128 + c.toNat % 64 - 128) =
          c.toNat from by omega]
        rw [Char.ofNat_toNat]
      · rw [show utf8EncodeChar c = [240 + c.toNat / 262144, 128 + c.toNat / 4096 % 64,
          128 + c.toNat / 64 % 64, 128 + c.toNat % 64] from by
            simp [utf8EncodeChar, h1, h2, h3]]
        rw [show [240 + c.toNat / 262144, 128 + c.toNat / 4096 % 64,
          128 + c.toNat / 64 % 64, 128 + c.toNat % 64] ++ rest =
          (240 + c.toNat / 262144) :: (128 + c.toNat / 4096 % 64) ::
          (128 + c.toNat / 64 % 64) :: (128 + c.toNat % 64) :: rest from rfl,
          utf8Decode_cons]
        have hb0a : ¬ (240 + c.toNat / 262144 < 128) := by omega
        have hb0b : ¬ (240 + c.toNat / 262144 < 224) := by omega
        have hb0c : ¬ (240 + c.toNat / 262144 < 240) := by omega
        simp only [utf8DecodeStep, if_neg hb0a, if_neg hb0b, if_neg hb0c]
        rw [show (240 + c.toNat / 262144 - 240) * 262144 +
          (128 + c.toNat / 4096 % 64 - 128) * 4096 +
          (128 + c.toNat / 64 % 64 - 128) * 64 + (128 + c.toNat % 64 - 128) =
          c.toNat from by omega]
        rw [Char.ofNat_toNat]

theorem utf8_roundtrip (t : List Char) : utf8Decode (utf8Encode t) = t := by
  induction t with
  | nil => simp [utf8Encode, utf8Decode]
  | cons c cs ih =>
    rw [show utf8Encode (c :: cs) = utf8EncodeChar c ++ utf8Encode cs from rfl]
    rw [utf8Decode_encodeChar, ih]

/-- Abstract disk: file contents by path. -/
def FileStore : Type := List Char → Option (List Nat)

/-- Replace the content stored at one path. -/
def storeWrite (fs : FileStore) (p : List Char) (bytes : List Nat) : FileStore :=
  fun q => if q = p then some bytes else fs q

/-- The bytes each saver writes for a document text: TXTSaver streams the text
(src/main.cpp lines 50-56), HTMLSaver writes the escaped p-element envelope
(lines 109-120), BINSaver writes the UTF-8 bytes (lines 141-147); QTextStream
output is modelled as UTF-8 as well. -/
def saveBytes : Fmt → List Char → List Nat
  | Fmt.plain, t => utf8Encode t
  | Fmt.markup, t => utf8Encode (htmlSaveContent t)
  | Fmt.raw, t => utf8Encode t

/-- The text each loader produces from stored bytes: TXTLoader reads the text
back (lines 41-46), HTMLLoader decodes then converts markup to plain text
(lines 99-105), BINLoader decodes the bytes (lines 131-136). -/
def loadText : Fmt → List Nat → List Char
  | Fmt.plain, bytes => utf8Decode bytes
  | Fmt.markup, bytes => htmlToPlain (utf8Decode bytes)
  | Fmt.raw, bytes => utf8Decode bytes

/-- saver->save(path, text): returns false and leaves the store untouched when
the path cannot be opened for writing. -/
def saverSave (fmt : Fmt) (wr : List Char → Bool) (fs : FileStore)
    (p t : List Char) : Bool × FileStore :=
  if wr p then (true, storeWrite fs p (saveBytes fmt t)) else (false, fs)

/-- loader->load(path): returns the empty text when the file is missing or
cannot be opened for reading. -/
def loaderLoad (fmt : Fmt) (rd : List Char → Bool) (fs : FileStore)
    (p : List Char) : List Char :=
  match fs p with
  | none => []
  | some bytes => if rd p then loadText fmt bytes else []

/-- C6: plain-text strategy round-trip — for every text T and every path
writable then readable, saving T with the plain-text strategy and loading from
the same path returns exactly T. -/
theorem c6_plain_roundtrip :
    ∀ (fs : FileStore) (wr rd : List Char → Bool) (p t : List Char),
      wr p = true → rd p = true →
      loaderLoad Fmt.plain rd ((saverSave Fmt.plain wr fs p t).2) p = t := by
  intro fs wr rd p t hw hr
  simp [saverSave, hw, loaderLoad, storeWrite, hr, loadText, saveBytes,
    utf8_roundtrip]

theorem c6_plain_roundtrip_witness :
    loaderLoad Fmt.plain (fun _ => true)
      ((saverSave Fmt.plain (fun _ => true) (fun _ => none)
        "a.txt".toList "hi there\n\nbye".toList).2)
      "a.txt".toList = "hi there\n\nbye".toList :=
  c6_plain_roundtrip _ _ _ _ _ rfl rfl

/-- C10: raw (bin) strategy round-trip — the saver writes the UTF-8 encoding
of the text, the loader decodes it back, with no further transformation, so
saving then loading from a writable, readable path returns exactly T. -/
theorem c10_raw_roundtrip :
    (∀ t : List Char, saveBytes Fmt.raw t = utf8Encode t) ∧
    (∀ bytes : List Nat, loadText Fmt.raw bytes = utf8Decode bytes) ∧
    (∀ (fs : FileStore) (wr rd : List Char → Bool) (p t : List Char),
      wr p = true → rd p = true →
      loaderLoad Fmt.raw rd ((saverSave Fmt.raw wr fs p t).2) p = t) := by
  refine ⟨fun _ => rfl, fun _ => rfl, ?_⟩
  intro fs wr rd p t hw hr
  simp [saverSave, hw, loaderLoad, storeWrite, hr, loadText, saveBytes,
    utf8_roundtrip]

theorem c10_raw_roundtrip_witness :
    loaderLoad Fmt.raw (fun _ => true)
      ((saverSave Fmt.raw (fun _ => true) (fun _ => none)
        "d.bin".toList "binary ü text".toList).2)
      "d.bin".toList = "binary ü text".toList :=
  c10_raw_roundtrip.2.2 _ _ _ _ _ rfl rfl

/-- The session state owned by the main function (src/main.cpp lines 221-230):
current file path ([] when none is set, as for QString), lazily created
factory, widget text and the paragraph-count baseline. -/
structure EditorState where
  currentPath : List Char
  currentFactory : Option Fmt
  docText : List Char
  lastParagraphCount : Nat

/-- User-visible effects of one event: observer notifications and the warning
box. -/
inductive Ev
  | paragraphsDeleted (n : Nat)
  | autoSaved (p : List Char)
  | errorBox
  deriving DecidableEq

/-- Result of handling one event: new state, new disk contents, effect trace. -/
structure StepResult where
  st : EditorState
  fs : FileStore
  evs : List Ev

/-- QFileInfo::suffix: the part after the last dot, empty when there is no
dot (directory separators are not modelled). -/
def suffixOf (p : List Char) : List Char :=
  if '.' ∈ p then (p.reverse.takeWhile (fun c => c ≠ '.')).reverse else []

/-- Factory resolution as the call sites perform it:
factoryForExtension(QFileInfo(path).suffix().toLower()). -/
def resolveFactory (p : List Char) : Fmt := lookupFactory (suffixOf p)

/-- The textChanged handler (src/main.cpp lines 269-284): fewer paragraphs
fire notifyDeleted; more paragraphs trigger an implicit save and notifySaved
when a path is set (the saver's result is discarded); the baseline is updated
in every branch. -/
def textChanged (wr : List Char → Bool) (fs : FileStore) (st : EditorState)
    (newText : List Char) : StepResult :=
  let st1 := { st with docText := newText }
  let cur := countParagraphs newText
  if cur < st1.lastParagraphCount then
    ⟨{ st1 with lastParagraphCount := cur }, fs,
      [Ev.paragraphsDeleted (st1.lastParagraphCount - cur)]⟩
  else if cur > st1.lastParagraphCount then
    if st1.currentPath ≠ [] then
      let fmt := st1.currentFactory.getD (resolveFactory st1.currentPath)
      let sres := saverSave fmt wr fs st1.currentPath newText
      ⟨{ st1 with currentFactory := some fmt, lastParagraphCount := cur }, sres.2,
        [Ev.autoSaved st1.currentPath]⟩
    else ⟨{ st1 with lastParagraphCount := cur }, fs, []⟩
  else ⟨{ st1 with lastParagraphCount := cur }, fs, []⟩

/-- The body of the Save action once a path exists (src/main.cpp lines
260-264): resolve the factory if absent, save, then warn on failure or fire
notifySaved on success. -/
def actSaveGo (wr : List Char → Bool) (fs : FileStore) (st : EditorState) :
    StepResult :=
  let fmt := st.currentFactory.getD (resolveFactory st.currentPath)
  let st2 := { st with currentFactory := some fmt }
  let sres := saverSave fmt wr fs st2.currentPath st2.docText
  if sres.1 then ⟨st2, sres.2, [Ev.autoSaved st2.currentPath]⟩
  else ⟨st2, sres.2, [Ev.errorBox]⟩

/-- The Save action (src/main.cpp lines 252-265): when no path is set the
dialog result `chosen` supplies one ([] cancels with no effect). -/
def actSave (wr : List Char → Bool) (fs : FileStore) (st : EditorState)
    (chosen : List Char) : StepResult :=
  if st.currentPath = [] then
    if chosen = [] then ⟨st, fs, []⟩
    else actSaveGo wr fs
      { st with currentPath := chosen, currentFactory := some (resolveFactory chosen) }
  else actSaveGo wr fs st

/-- C1: for every TextChanged(newText) event with c = countParagraphs(newText)
and b the stored baseline: c < b fires notifyParagraphsDeleted(b - c) and
writes nothing; c > b with a File Reference set saves the current text through
the active format strategy (when the path is writable) and fires
notifyAutoSaved(path); c > b with no File Reference writes nothing and fires
nothing; c = b fires nothing and writes nothing; the baseline is always
updated to c. -/
theorem c1_textChanged_spec :
    ∀ (wr : List Char → Bool) (fs : FileStore) (st : EditorState) (t : List Char),
      (countParagraphs t < st.lastParagraphCount →
        (textChanged wr fs st t).evs =
          [Ev.paragraphsDeleted (st.lastParagraphCount - countParagraphs t)] ∧
        (textChanged wr fs st t).fs = fs) ∧
      (countParagraphs t > st.lastParagraphCount → st.currentPath ≠ [] →
        (textChanged wr fs st t).evs = [Ev.autoSaved st.currentPath] ∧
        (wr st.currentPath = true →
          (textChanged wr fs st t).fs st.currentPath =
            some (saveBytes
              (st.currentFactory.getD (resolveFactory st.currentPath)) t)) ∧
        (wr st.currentPath = false → (textChanged wr fs st t).fs = fs)) ∧
      (countParagraphs t > st.lastParagraphCount → st.currentPath = [] →
        (textChanged wr fs st t).evs = [] ∧ (textChanged wr fs st t).fs = fs) ∧
      (countParagraphs t = st.lastParagraphCount →
        (textChanged wr fs st t).evs = [] ∧ (textChanged wr fs st t).fs = fs) ∧
      (textChanged wr fs st t).st.lastParagraphCount = countParagraphs t := by
  intro wr fs st t
  refine ⟨?_, ?_, ?_, ?_, ?_⟩
  · intro h
    simp [textChanged, h]
  · intro h hp
    have h1 : ¬ countParagraphs t < st.lastParagraphCount := Nat.lt_asymm h
    refine ⟨?_, ?_, ?_⟩
    · simp [textChanged, h1, h, hp]
    · intro hw
      simp [textChanged, h1, h, hp, saverSave, hw, storeWrite]
    · intro hw
      simp [textChanged, h1, h, hp, saverSave, hw]
  · intro h hp
    have h1 : ¬ countParagraphs t < st.lastParagraphCount := Nat.lt_asymm h
    simp [textChanged, h1, h, hp]
  · intro h
    simp [textChanged, h]
  · by_cases h1 : countParagraphs t < st.lastParagraphCount
    · simp [textChanged, h1]
    · by_cases h2 : countParagraphs t > st.lastParagraphCount
      · by_cases hp : st.currentPath = [] <;> simp [textChanged, h1, h2, hp]
      · simp [textChanged, h1, h2]

theorem c1_textChanged_spec_witness :
    (textChanged (fun _ => true) (fun _ => none)
      ⟨"a.txt".toList, none, [], 0⟩ "x".toList).evs =
      [Ev.autoSaved "a.txt".toList] ∧
    (textChanged (fun _ => true) (fun _ => none)
      ⟨"a.txt".toList, none, [], 0⟩ "x".toList).fs "a.txt".toList =
      some (saveBytes ((none : Option Fmt).getD (resolveFactory "a.txt".toList))
        "x".toList) ∧
    (textChanged (fun _ => true) (fun _ => none)
      ⟨[], none, [], 2⟩ []).evs = [Ev.paragraphsDeleted 2] := by
  refine ⟨?_, ?_, ?_⟩
  · exact ((c1_textChanged_spec _ _ _ _).2.1 (by decide) (by decide)).1
  · exact ((c1_textChanged_spec _ _ _ _).2.1 (by decide) (by decide)).2.1 rfl
  · exact ((c1_textChanged_spec (fun _ => true) (fun _ => none)
      ⟨[], none, [], 2⟩ []).1 (by decide)).1

/-- C5 counterexample: for the implicit save on paragraph growth the saver's
result is discarded — with an unwritable path the save fails, yet
notifyAutoSaved is still fired and no error message is surfaced. -/
theorem c5_implicit_save_failure_cex :
    (saverSave Fmt.plain (fun _ => false) (fun _ => none)
      "a.txt".toList "x".toList).1 = false ∧
    (textChanged (fun _ => false) (fun _ => none)
      ⟨"a.txt".toList, some Fmt.plain, [], 0⟩ "x".toList).evs =
      [Ev.autoSaved "a.txt".toList] ∧
    Ev.errorBox ∉ (textChanged (fun _ => false) (fun _ => none)
      ⟨"a.txt".toList, some Fmt.plain, [], 0⟩ "x".toList).evs := by
  refine ⟨rfl, rfl, ?_⟩
  rw [show (textChanged (fun _ => false) (fun _ => none)
      ⟨"a.txt".toList, some Fmt.plain, [], 0⟩ "x".toList).evs =
      [Ev.autoSaved "a.txt".toList] from rfl]
  decide

/-- C5 (amended): for the explicit Save, a saver failure surfaces a blocking
error message, notifyAutoSaved is not fired, and the File Reference and
Document Text are left unchanged, while success fires notifyAutoSaved; the
implicit save on paragraph growth, however, discards the saver's result:
notifyAutoSaved is fired regardless of failure, no error is surfaced, and on
failure nothing is written. -/
theorem c5_save_error_handling :
    (∀ (wr : List Char → Bool) (fs : FileStore) (st : EditorState)
        (chosen : List Char),
      st.currentPath ≠ [] →
      (wr st.currentPath = false →
        (actSave wr fs st chosen).evs = [Ev.errorBox] ∧
        (actSave wr fs st chosen).fs = fs ∧
        (actSave wr fs st chosen).st.currentPath = st.currentPath ∧
        (actSave wr fs st chosen).st.docText = st.docText) ∧
      (wr st.currentPath = true →
        (actSave wr fs st chosen).evs = [Ev.autoSaved st.currentPath])) ∧
    (∀ (wr : List Char → Bool) (fs : FileStore) (st : EditorState) (t : List Char),
      countParagraphs t > st.lastParagraphCount → st.currentPath ≠ [] →
      wr st.currentPath = false →
      (textChanged wr fs st t).evs = [Ev.autoSaved st.currentPath] ∧
      (textChanged wr fs st t).fs = fs ∧
      Ev.errorBox ∉ (textChanged wr fs st t).evs) := by
  constructor
  · intro wr fs st chosen hp
    constructor
    · intro hw
      simp [actSave, hp, actSaveGo, saverSave, hw]
    · intro hw
      simp [actSave, hp, actSaveGo, saverSave, hw]
  · intro wr fs st t h hp hw
    have h1 : ¬ countParagraphs t < st.lastParagraphCount := Nat.lt_asymm h
    refine ⟨?_, ?_, ?_⟩ <;> simp [textChanged, h1, h, hp, saverSave, hw]

theorem c5_save_error_handling_witness :
    (actSave (fun _ => false) (fun _ => none)
      ⟨"a.txt".toList, some Fmt.plain, "x".toList, 0⟩ []).evs = [Ev.errorBox] ∧
    (actSave (fun _ => true) (fun _ => none)
      ⟨"a.txt".toList, some Fmt.plain, "x".toList, 0⟩ []).evs =
      [Ev.autoSaved "a.txt".toList] ∧
    (textChanged (fun _ => false) (fun _ => none)
      ⟨"b.txt".toList, some Fmt.plain, [], 0⟩ "y".toList).evs =
      [Ev.autoSaved "b.txt".toList] :=
  ⟨((c5_save_error_handling.1 _ _ _ _ (by decide)).1 rfl).1,
    (c5_save_error_handling.1 _ _ _ _ (by decide)).2 rfl,
    (c5_save_error_handling.2 _ _ _ _ (by decide) (by decide) rfl).1⟩
